import Mathlib

/-!
Verification of the `testsnake` Go static-analysis rule.

The development shallowly embeds the two near-duplicate implementations of
the rule found in the repository:

* `src/testsnake.go` — the main analyzer (`run`, `eval`, `strVal`,
  `findVarDecl`, `extractFieldValueWithPos`, `extractValuesWithPosFromRange`,
  `isTestingType`, `isValidSnakeCase`);
* `src/unnamed/part_001` — the older near-duplicate entry point
  (`run`, `getStringValue`, `extractTableTestNames`,
  `extractNamesFromCompositeLit`, sharing `findVarDecl`, `isTestingType`
  and `isValidSnakeCase` verbatim with the main file).

Go `token.Pos` is modelled as `Nat` (with `token.NoPos = 0`); Go strings as
Lean `String`; the `go/ast` syntax tree as the `Node` inductive below; the
`go/types` information of an `analysis.Pass` (`TypesInfo.TypeOf`,
`TypesInfo.Types[..].Value`, `TypesInfo.ObjectOf`) as oracle functions
carried by the `Pass` structure.  `ast.Inspect` (pre-order traversal where
returning `false` prunes the children of the current node) is modelled by
`preorder` (the plain pre-order listing, used for visitors that always
return `true`) and `inspectUpd` (threading an accumulator, overwriting it
at every match and pruning the matched node's children, used for the
searches in `findVarDecl` and `extractValuesWithPosFromRange`).
-/

/-! ## Convention Validator (`isValidSnakeCase`, src/testsnake.go lines 327-346)

The Go code first rejects the empty string, then rejects any string
containing an upper-case rune (`unicode.IsUpper`), and finally matches the
anchored regular expression `^[a-z0-9]+(_[a-z0-9]+)*$`.

`isLowerAlnum` is the character class `[a-z0-9]` (ASCII code points 97-122
and 48-57).  `goIsUpper` models `unicode.IsUpper` on the ASCII range
(65-90); `unicode.IsUpper` also accepts non-ASCII upper-case code points,
but every result proved below is independent of that difference: any string
containing a character outside `[a-z0-9_]` — in particular any non-ASCII
character — is rejected by the regular expression under both readings.

The regular expression `^[a-z0-9]+(_[a-z0-9]+)*$` is embedded as the
deterministic matcher `matchSeg`/`matchAfter`.  The character classes
`[a-z0-9]` and `_` are disjoint, so the regular expression is matched by a
one-pass deterministic automaton: `matchSeg` expects the first character of
a segment (which must be in `[a-z0-9]`), `matchAfter` consumes the rest of
a segment and, on `_`, requires a fresh non-empty segment.
-/

def isLowerAlnum (c : Char) : Bool :=
  (decide (97 ≤ c.toNat) && decide (c.toNat ≤ 122)) ||
    (decide (48 ≤ c.toNat) && decide (c.toNat ≤ 57))

def goIsUpper (c : Char) : Bool :=
  decide (65 ≤ c.toNat) && decide (c.toNat ≤ 90)

mutual

def matchSeg : List Char → Bool
  | [] => false
  | c :: cs => isLowerAlnum c && matchAfter cs

def matchAfter : List Char → Bool
  | [] => true
  | c :: cs =>
    if isLowerAlnum c then matchAfter cs
    else if c = '_' then matchSeg cs
    else false

end

/-- `isValidSnakeCase` from src/testsnake.go (identical in
src/unnamed/part_001 and part_002): empty string invalid, any upper-case
character invalid, otherwise the string must match
`^[a-z0-9]+(_[a-z0-9]+)*$`. -/
def isValidSnakeCase (s : String) : Bool :=
  if s.data = [] then false
  else if s.data.any goIsUpper then false
  else matchSeg s.data

/-! ### The snake_case grammar, formalised from the specification's words

"one or more runs of lower-case-letter-or-digit joined by single
underscores": a first run, followed by zero or more further runs each
preceded by exactly one underscore. -/

def flatMapD (f : α → List β) : List α → List β
  | [] => []
  | a :: as => f a ++ flatMapD f as

/-- A run: non-empty, all characters in `[a-z0-9]`. -/
def GoodSeg (seg : List Char) : Prop :=
  seg ≠ [] ∧ ∀ c ∈ seg, isLowerAlnum c = true

/-- The snake_case grammar of the specification: one or more runs of
lower-case-letter-or-digit, joined by single underscores. -/
def SnakeGrammar (l : List Char) : Prop :=
  ∃ seg segs, GoodSeg seg ∧ (∀ t ∈ segs, GoodSeg t) ∧
    l = seg ++ flatMapD (fun t => '_' :: t) segs

/-- The partially-consumed grammar recognised by `matchAfter`: the tail of a
run, followed by zero or more underscore-prefixed runs. -/
def AfterSpec (l : List Char) : Prop :=
  ∃ pre segs, (∀ c ∈ pre, isLowerAlnum c = true) ∧ (∀ t ∈ segs, GoodSeg t) ∧
    l = pre ++ flatMapD (fun t => '_' :: t) segs

/-! ## The Go AST and type-information model

`Node` models a `go/ast` node.  `Shape` carries the node kind and its
non-child data; `kids` are the children in the order `ast.Inspect` visits
them.  Layout conventions:

* `callS`: kids are `Fun :: Args`; carries `Pos()` and `End()`;
* `selS`: kids are `[X]`; carries the selected member's name (`Sel.Name`);
* `kvS`: kids are `[Key, Value]`;
* `assignS n`: the first `n` kids are `Lhs`, the rest `Rhs`;
* `rangeS hasKey hasValue`: kids are the optional `Key`, the optional
  `Value`, the collection `X`, then the body statements;
* `valueSpecS n`: the first `n` kids are `Names`, the rest `Values`;
* `identS` carries the identifier's name and, modelling
  `pass.TypesInfo.ObjectOf`, the identity of the object it refers to
  (`none` when `ObjectOf` returns `nil`);
* `otherS`: any other node (blocks, function literals, ...).
-/

abbrev Pos := Nat

abbrev ObjId := Nat

inductive Shape where
  | basicLitS (pos : Pos) (value : String)
  | identS (pos : Pos) (name : String) (obj : Option ObjId)
  | selS (pos : Pos) (selName : String)
  | callS (pos endp : Pos)
  | compS (pos : Pos)
  | kvS (pos : Pos)
  | assignS (pos : Pos) (nLhs : Nat)
  | rangeS (pos endp : Pos) (hasKey hasValue : Bool)
  | valueSpecS (pos : Pos) (nNames : Nat)
  | otherS (pos : Pos)
deriving DecidableEq

inductive Node where
  | mk (shape : Shape) (kids : List Node)

/-- `go/constant` value kinds (only stringness matters to the analyzer). -/
inductive GoKind where
  | str
  | otherK
deriving DecidableEq

/-- A `go/constant.Value`: its kind and the output of its `String()`
method (quoted for string constants, as in Go). -/
structure GoConst where
  kind : GoKind
  repr : String
deriving DecidableEq

/-- The kind of a `types.Object`: a constant (`*types.Const`, with its
value), a variable (`*types.Var`), or anything else. -/
inductive ObjKind where
  | constObj (val : GoConst)
  | varObj
  | otherObj
deriving DecidableEq

structure GoFile where
  fileName : String
  root : Node

/-- An `analysis.Pass`: the files plus the `go/types` oracles.
`typeOf e` models `pass.TypesInfo.TypeOf(e).String()` (`none` for a `nil`
type); `constValOf e` models `pass.TypesInfo.Types[e].Value`; `objKind o`
classifies the object with identity `o`. -/
structure Pass where
  files : List GoFile
  typeOf : Node → Option String
  constValOf : Node → Option GoConst
  objKind : ObjId → ObjKind

/-- A reported diagnostic: position and the name substituted into the fixed
message template `test name %q should use snake_case (e.g., "my_test_case")`
(the template string is identical in both implementations, so a diagnostic
is determined by position and name). -/
structure Diagnostic where
  pos : Pos
  name : String
deriving DecidableEq

/-- `valueWithPos` from src/testsnake.go. -/
structure ValueWithPos where
  value : String
  pos : Pos
deriving DecidableEq

/-! ### Node constructors and destructors -/

def litN (p : Pos) (v : String) : Node := .mk (.basicLitS p v) []

def idN (p : Pos) (nm : String) (o : Option ObjId) : Node :=
  .mk (.identS p nm o) []

def selN (p : Pos) (x : Node) (s : String) : Node := .mk (.selS p s) [x]

def callN (p e : Pos) (fn : Node) (args : List Node) : Node :=
  .mk (.callS p e) (fn :: args)

def compN (p : Pos) (elts : List Node) : Node := .mk (.compS p) elts

def kvN (p : Pos) (k v : Node) : Node := .mk (.kvS p) [k, v]

def assignN (p : Pos) (lhs rhs : List Node) : Node :=
  .mk (.assignS p lhs.length) (lhs ++ rhs)

def rangeN (p e : Pos) (value : Node) (x : Node) (body : List Node) : Node :=
  .mk (.rangeS p e false true) (value :: x :: body)

def specN (p : Pos) (names vals : List Node) : Node :=
  .mk (.valueSpecS p names.length) (names ++ vals)

def otherN (p : Pos) (ks : List Node) : Node := .mk (.otherS p) ks

def shapePos : Shape → Pos
  | .basicLitS p _ => p
  | .identS p _ _ => p
  | .selS p _ => p
  | .callS p _ => p
  | .compS p => p
  | .kvS p => p
  | .assignS p _ => p
  | .rangeS p _ _ _ => p
  | .valueSpecS p _ => p
  | .otherS p => p

/-- `node.Pos()`. -/
def nodePos : Node → Pos
  | .mk s _ => shapePos s

/-- `expr.(*ast.BasicLit)`: position and raw token text (quotes included). -/
def isBasicLit : Node → Option (Pos × String)
  | .mk (.basicLitS p v) _ => some (p, v)
  | _ => none

/-- `expr.(*ast.Ident)`: name and `ObjectOf` result. -/
def isIdent : Node → Option (String × Option ObjId)
  | .mk (.identS _ nm o) _ => some (nm, o)
  | _ => none

/-- `expr.(*ast.SelectorExpr)`: position, `X`, `Sel.Name`. -/
def isSelectorNode : Node → Option (Pos × Node × String)
  | .mk (.selS p s) [x] => some (p, x, s)
  | _ => none

/-- `n.(*ast.CallExpr)`: `Pos()`, `End()`, `Fun`, `Args`. -/
def isCall : Node → Option (Pos × Pos × Node × List Node)
  | .mk (.callS p e) (fn :: args) => some (p, e, fn, args)
  | _ => none

/-- `expr.(*ast.CompositeLit)`: position and `Elts`. -/
def isComposite : Node → Option (Pos × List Node)
  | .mk (.compS p) elts => some (p, elts)
  | _ => none

/-- `elt.(*ast.KeyValueExpr)`: position, `Key`, `Value`. -/
def isKeyValue : Node → Option (Pos × Node × Node)
  | .mk (.kvS p) [k, v] => some (p, k, v)
  | _ => none

/-- `n.(*ast.AssignStmt)`: `Lhs` and `Rhs`. -/
def isAssign : Node → Option (List Node × List Node)
  | .mk (.assignS _ nL) ks => some (ks.take nL, ks.drop nL)
  | _ => none

/-- `n.(*ast.RangeStmt)`: `Pos()`, `End()`, optional `Value`, `X`, body. -/
def isRange : Node → Option (Pos × Pos × Option Node × Node × List Node)
  | .mk (.rangeS p e hk hv) ks =>
    let ks1 := if hk then ks.drop 1 else ks
    match hv, ks1 with
    | true, v :: x :: body => some (p, e, some v, x, body)
    | false, x :: body => some (p, e, none, x, body)
    | _, _ => none
  | _ => none

/-- `n.(*ast.ValueSpec)`: `Names` and `Values`. -/
def isValueSpec : Node → Option (List Node × List Node)
  | .mk (.valueSpecS _ nN) ks => some (ks.take nN, ks.drop nN)
  | _ => none

/-! ### Traversal (`ast.Inspect`) -/

mutual

/-- The pre-order listing of all nodes, in `ast.Inspect` visiting order.
Models an `ast.Inspect` whose visitor always returns `true`. -/
def preorder : Node → List Node
  | .mk s ks => .mk s ks :: preorderList ks

def preorderList : List Node → List Node
  | [] => []
  | k :: ks => preorder k ++ preorderList ks

end

mutual

/-- An `ast.Inspect` whose visitor, when `pick` fires on a node, stores the
picked value (overwriting any previous one) and returns `false` (pruning
that node's children), and otherwise returns `true`.  This is the shape of
the searches in `findVarDecl` and `extractValuesWithPosFromRange` in
src/testsnake.go, none of which guard against later overwrites. -/
def inspectUpd (pick : Node → Option α) : α → Node → α
  | acc, .mk s ks =>
    match pick (.mk s ks) with
    | some a => a
    | none => inspectUpdList pick acc ks

def inspectUpdList (pick : Node → Option α) : α → List Node → α
  | acc, [] => acc
  | acc, k :: ks => inspectUpdList pick (inspectUpd pick acc k) ks

end

/-- The per-file search loop of `findVarDecl`: a `result` string threaded
through the files, with `break` as soon as it is non-empty after a file. -/
def searchFilesStr (pick : Node → Option String) : List GoFile → String → String
  | [], acc => acc
  | f :: fs, acc =>
    let acc2 := inspectUpd pick acc f.root
    if acc2 = "" then searchFilesStr pick fs acc2 else acc2

/-- Wrapper turning a `pick` into one usable with `inspectUpd` at
accumulator type `Option α` (Go: a typed `nil`-initialised variable set by
the closure). -/
def optPick (pick : Node → Option α) (n : Node) : Option (Option α) :=
  match pick n with
  | some a => some (some a)
  | none => none

/-- The per-file search loops of `extractValuesWithPosFromRange`: a
`nil`-initialised variable, `break` as soon as it is set after a file. -/
def searchFilesOpt (pick : Node → Option α) : List GoFile → Option α → Option α
  | [], acc => acc
  | f :: fs, acc =>
    match inspectUpd (optPick pick) acc f.root with
    | some a => some a
    | none => searchFilesOpt pick fs none

/-! ### Value Resolver (src/testsnake.go) -/

/-- `fieldName` from src/testsnake.go: the name of an identifier key,
`""` otherwise. -/
def fieldNameOf (key : Node) : String :=
  match isIdent key with
  | some (nm, _) => nm
  | none => ""

/-- `strings.Trim(s, "\"")`: remove all leading and trailing `"` runes. -/
def trimQuotes (s : String) : String :=
  ⟨((s.data.dropWhile (· = '"')).reverse.dropWhile (· = '"')).reverse⟩

/-- The body of the `ast.Inspect` closure in `findVarDecl`: on an
assignment statement, the first position `i` whose `Lhs[i]` is an
identifier resolving to `obj` with `i < len(Rhs)` and `Rhs[i]` a basic
literal yields that literal's quote-trimmed text (positions whose `Rhs[i]`
is not a basic literal are skipped and the loop continues). -/
def varPickZip (obj : ObjId) : List (Node × Node) → Option String
  | [] => none
  | (l, r) :: rest =>
    match isIdent l with
    | some (_, some o) =>
      if o = obj then
        match isBasicLit r with
        | some (_, v) => some (trimQuotes v)
        | none => varPickZip obj rest
      else varPickZip obj rest
    | _ => varPickZip obj rest

def findVarDeclPick (obj : ObjId) (n : Node) : Option String :=
  match isAssign n with
  | some (lhs, rhs) => varPickZip obj (lhs.zip rhs)
  | none => none

/-- `findVarDecl` from src/testsnake.go (textually identical in
src/unnamed/part_001 and part_002): search all files for assignment
statements assigning a basic literal to the identifier's object; each match
overwrites `result` and prunes the matched statement's children; stop at the
first file after which `result` is non-empty. -/
def findVarDecl (pass : Pass) (idn : Node) : String :=
  match isIdent idn with
  | some (_, some obj) => searchFilesStr (findVarDeclPick obj) pass.files ""
  | _ => ""

/-- The tail of `eval` from src/testsnake.go, after the `BasicLit` and
`Types[expr].Value` cases: selector expressions resolve to nothing;
identifiers resolve via their object (string constants by value, variables
via `findVarDecl`); everything else resolves to nothing. -/
def evalOther (pass : Pass) (e : Node) : Option String :=
  if (isSelectorNode e).isSome then none
  else
    match isIdent e with
    | some (_, some o) =>
      match pass.objKind o with
      | .constObj cv =>
        if cv.kind = GoKind.str then some (trimQuotes cv.repr) else none
      | .varObj =>
        let d := findVarDecl pass e
        if d = "" then none else some d
      | .otherObj => none
    | _ => none

/-- `eval` from src/testsnake.go: basic literals resolve to their
quote-trimmed token text; then any expression whose `Types[..].Value` is a
string constant resolves to its quote-trimmed `String()`; then the selector,
identifier and default cases of `evalOther`. -/
def eval (pass : Pass) (e : Node) : Option String :=
  match isBasicLit e with
  | some (_, v) => some (trimQuotes v)
  | none =>
    match pass.constValOf e with
    | some cv =>
      if cv.kind = GoKind.str then some (trimQuotes cv.repr)
      else evalOther pass e
    | none => evalOther pass e

/-- `strVal` from src/testsnake.go: the resolved value, or `""` when
unresolved. -/
def strVal (pass : Pass) (e : Node) : String :=
  (eval pass e).getD ""

/-! ### Table-driven extraction (src/testsnake.go) -/

/-- `extractFieldValueWithPos`: scan the composite literal's elements for a
key/value pair whose key's field name equals `targetField` and whose value
`eval`uates; return that value and the value expression's position, or
`("", token.NoPos)`. -/
def extractFieldValueWithPos (pass : Pass) : List Node → String → String × Pos
  | [], _ => ("", 0)
  | e :: rest, tf =>
    match isKeyValue e with
    | some (_, k, v) =>
      if fieldNameOf k = tf then
        match eval pass v with
        | some val => (val, nodePos v)
        | none => extractFieldValueWithPos pass rest tf
      else extractFieldValueWithPos pass rest tf
    | none => extractFieldValueWithPos pass rest tf

/-- The range-statement search of `extractValuesWithPosFromRange`: a range
statement whose `Value` is an identifier resolving to `obj` yields its
collection expression `X`.  No containment check, no file restriction. -/
def rangePick (obj : ObjId) (n : Node) : Option Node :=
  match isRange n with
  | some (_, _, some vnode, x, _) =>
    match isIdent vnode with
    | some (_, some o) => if o = obj then some x else none
    | _ => none
  | _ => none

/-- The slice-declaration search: on an assignment statement, the first
position whose `Lhs[i]` resolves to `obj` and whose `Rhs[i]` is a composite
literal yields that literal's elements. -/
def slicePickZip (obj : ObjId) : List (Node × Node) → Option (List Node)
  | [] => none
  | (l, r) :: rest =>
    match isIdent l with
    | some (_, some o) =>
      if o = obj then
        match isComposite r with
        | some (_, elts) => some elts
        | none => slicePickZip obj rest
      else slicePickZip obj rest
    | _ => slicePickZip obj rest

def slicePick (obj : ObjId) (n : Node) : Option (List Node) :=
  match isAssign n with
  | some (lhs, rhs) => slicePickZip obj (lhs.zip rhs)
  | none => none

/-- `extractValuesWithPosFromRange` from src/testsnake.go: resolve the loop
variable's object; search all files for a range statement whose `Value`
binds that object (last match in the first file containing one wins, no
containment check); resolve its collection to a composite literal (directly,
or through the single-assignment search when it is an identifier); then
collect, per composite-literal row, the `targetField` value and position,
dropping rows whose value is empty. -/
def extractValuesWithPosFromRange (pass : Pass) (rangeVar : Node)
    (fld : String) : List ValueWithPos :=
  match isIdent rangeVar with
  | some (_, some obj) =>
    match searchFilesOpt (rangePick obj) pass.files none with
    | none => []
    | some rangeExpr =>
      let sliceElts : Option (List Node) :=
        match isIdent rangeExpr with
        | some (_, some sliceObj) =>
          searchFilesOpt (slicePick sliceObj) pass.files none
        | some (_, none) => none
        | none =>
          match isComposite rangeExpr with
          | some (_, elts) => some elts
          | none => none
      match sliceElts with
      | none => []
      | some elts =>
        elts.filterMap fun elt =>
          match isComposite elt with
          | some (_, rowElts) =>
            let fv := extractFieldValueWithPos pass rowElts fld
            if fv.1 ≠ "" then some ⟨fv.1, fv.2⟩ else none
          | none => none
  | _ => []

/-! ### Call-site pattern matcher (src/testsnake.go) -/

/-- `isTestingType` from src/testsnake.go (identical in part_001 and
part_002): the receiver's type string must be exactly one of `*testing.T`,
`*testing.B`, `*testing.F`. -/
def isTestingType (pass : Pass) (e : Node) : Bool :=
  match pass.typeOf e with
  | none => false
  | some t =>
    if t = "*testing.T" ∨ t = "*testing.B" ∨ t = "*testing.F" then true
    else false

/-- The direct-resolution tail of the `run` visitor in src/testsnake.go:
resolve the name argument via `strVal`; an empty result is skipped; an
invalid non-empty result is reported at the call expression's position. -/
def directPath (pass : Pass) (callPos : Pos) (arg : Node) : List Diagnostic :=
  let testName := strVal pass arg
  if testName = "" then []
  else if isValidSnakeCase testName then [] else [⟨callPos, testName⟩]

/-- The `run` visitor of src/testsnake.go at one node: the diagnostics that
visiting this node emits.  Candidate shape: a call whose callee is a
selector named `Run`, whose receiver has a testing type, with at least two
arguments.  A selector name argument over an identifier takes the
table-driven path (reporting each non-empty invalid row value at the row
value's position) and falls through to the direct path when the table
yields zero values. -/
def processNode (pass : Pass) (n : Node) : List Diagnostic :=
  match isCall n with
  | none => []
  | some (p, _, fn, args) =>
    match isSelectorNode fn with
    | none => []
    | some (_, x, selName) =>
      if selName = "Run" then
        if isTestingType pass x then
          if 2 ≤ args.length then
            match args with
            | [] => []
            | firstArg :: _ =>
              match isSelectorNode firstArg with
              | some (_, sx, fld) =>
                if (isIdent sx).isSome then
                  let tcs := extractValuesWithPosFromRange pass sx fld
                  let ds := tcs.filterMap fun tc =>
                    if tc.value ≠ "" ∧ isValidSnakeCase tc.value = false then
                      some ⟨tc.pos, tc.value⟩
                    else none
                  if 0 < tcs.length then ds else directPath pass p firstArg
                else directPath pass p firstArg
              | none => directPath pass p firstArg
          else []
        else []
      else []

/-- `strings.HasSuffix(name, "_test.go")`. -/
def hasTestSuffix (nm : String) : Bool :=
  "_test.go".data.isSuffixOf nm.data

/-- One file of `run` from src/testsnake.go: skip non-test files, otherwise
emit the diagnostics of every node in visiting order. -/
def runFile (pass : Pass) (f : GoFile) : List Diagnostic :=
  if hasTestSuffix f.fileName then
    flatMapD (processNode pass) (preorder f.root)
  else []

/-- `run` from src/testsnake.go: all files in order. -/
def runPass (pass : Pass) : List Diagnostic :=
  flatMapD (runFile pass) pass.files

/-! ## The near-duplicate entry point (src/unnamed/part_001)

It shares `findVarDecl`, `isTestingType` and `isValidSnakeCase` (textually
identical) with src/testsnake.go, but differs in the resolver order
(`getStringValue`), in the table-driven extraction
(`extractTableTestNames`: enclosing-range search by position containment in
the same file, identifier collections only, `ValueSpec` declarations also
searched, plain `BasicLit` row values only, results collected into a Go
map), and in the selector branch of its `run` visitor (which never falls
through to direct resolution and has no empty-value guard).

Go map iteration order is unspecified; the model represents the map as an
insertion-ordered association list with overwriting inserts.  Every claim
settled against this model is insensitive to that choice (the scenarios
involved produce maps with at most one entry).
-/

/-- `getStringValue` from src/unnamed/part_001, cases after the first two:
the unconditional `Types[expr].Value` fallback (note: no string-kind
check). -/
def gsvTypes (pass : Pass) (e : Node) : String :=
  match pass.constValOf e with
  | some cv => trimQuotes cv.repr
  | none => ""

/-- `getStringValue` from src/unnamed/part_001: basic literal, then
identifier (constant of any kind; variable via `findVarDecl` falling
through to the `Types` lookup when unresolved), then the `Types` lookup. -/
def getStringValue (pass : Pass) (e : Node) : String :=
  match isBasicLit e with
  | some (_, v) => trimQuotes v
  | none =>
    match isIdent e with
    | some (_, some o) =>
      match pass.objKind o with
      | .constObj cv => trimQuotes cv.repr
      | .varObj =>
        let d := findVarDecl pass e
        if d ≠ "" then d else gsvTypes pass e
      | .otherObj => gsvTypes pass e
    | _ => gsvTypes pass e

/-- Insert-or-overwrite into the association-list model of the Go map. -/
def mapInsert (m : List (String × Pos)) (k : String) (v : Pos) :
    List (String × Pos) :=
  if m.any (fun p => p.1 = k) then
    m.map fun p => if p.1 = k then (k, v) else p
  else m ++ [(k, v)]

/-- `extractNamesFromCompositeLit` from src/unnamed/part_001: for each row
that is a composite literal, for each key/value pair whose key is an
identifier named `fld` and whose value is a basic literal, store the
quote-trimmed value at the literal's position (overwriting a previous
entry with the same value). -/
def extractNamesFromCompositeLit (elts : List Node) (fld : String)
    (acc : List (String × Pos)) : List (String × Pos) :=
  elts.foldl
    (fun acc elt =>
      match isComposite elt with
      | some (_, rowElts) =>
        rowElts.foldl
          (fun acc ie =>
            match isKeyValue ie with
            | some (_, k, v) =>
              match isIdent k with
              | some (nm, _) =>
                if nm = fld then
                  match isBasicLit v with
                  | some (vp, vv) => mapInsert acc (trimQuotes vv) vp
                  | none => acc
                else acc
              | none => acc
            | none => acc)
          acc
      | none => acc)
    acc

/-- The enclosing-range search of `extractTableTestNames`: the first range
statement (in pre-order of the call's own file) whose span strictly
contains the call's span.  Note: it need not bind the selector's loop
variable. -/
def rangeContainsCall (callPos callEnd : Pos) (n : Node) : Option Node :=
  match isRange n with
  | some (p, e, _, _, _) => if p < callPos ∧ callEnd < e then some n else none
  | none => none

/-- The collection-literal search of `extractTableTestNames`: scan the whole
file (no pruning, every match contributes) for assignment statements and
value specs binding `obj` to a composite literal, accumulating row names. -/
def collectTableAssigns (fileRoot : Node) (obj : ObjId) (fld : String) :
    List (String × Pos) :=
  (preorder fileRoot).foldl
    (fun acc n =>
      match isAssign n with
      | some (lhs, rhs) =>
        (lhs.zip rhs).foldl
          (fun acc lr =>
            match isIdent lr.1 with
            | some (_, some o) =>
              if o = obj then
                match isComposite lr.2 with
                | some (_, elts) => extractNamesFromCompositeLit elts fld acc
                | none => acc
              else acc
            | _ => acc)
          acc
      | none =>
        match isValueSpec n with
        | some (names, vals) =>
          (names.zip vals).foldl
            (fun acc lr =>
              match isIdent lr.1 with
              | some (_, some o) =>
                if o = obj then
                  match isComposite lr.2 with
                  | some (_, elts) => extractNamesFromCompositeLit elts fld acc
                  | none => acc
                else acc
              | _ => acc)
            acc
        | none => acc)
    []

/-- `extractTableTestNames` from src/unnamed/part_001: find the first range
statement of the call's file containing the call by position; its collection
must be an identifier with an object; then collect every composite-literal
binding of that object in the file. -/
def extractTableTestNames (fileRoot : Node) (fld : String)
    (callPos callEnd : Pos) : List (String × Pos) :=
  match (preorder fileRoot).findSome? (rangeContainsCall callPos callEnd) with
  | none => []
  | some rn =>
    match isRange rn with
    | some (_, _, _, x, _) =>
      match isIdent x with
      | some (_, some obj) => collectTableAssigns fileRoot obj fld
      | _ => []
    | none => []

/-- The direct-resolution tail of the part_001 `run` visitor. -/
def directPathV1 (pass : Pass) (callPos : Pos) (arg : Node) :
    List Diagnostic :=
  let tn := getStringValue pass arg
  if tn = "" then []
  else if isValidSnakeCase tn then [] else [⟨callPos, tn⟩]

/-- The part_001 `run` visitor at one node: same candidate filter as
src/testsnake.go, but any selector name argument takes the table path and
returns (no fall-through, no empty-value guard on table entries). -/
def processNodeV1 (pass : Pass) (fileRoot : Node) (n : Node) :
    List Diagnostic :=
  match isCall n with
  | none => []
  | some (p, e, fn, args) =>
    match isSelectorNode fn with
    | none => []
    | some (_, x, selName) =>
      if selName = "Run" then
        if isTestingType pass x then
          if 2 ≤ args.length then
            match args with
            | [] => []
            | firstArg :: _ =>
              match isSelectorNode firstArg with
              | some (_, _, fld) =>
                (extractTableTestNames fileRoot fld p e).filterMap
                  fun nv =>
                    if isValidSnakeCase nv.1 then none else some ⟨nv.2, nv.1⟩
              | none => directPathV1 pass p firstArg
          else []
        else []
      else []

def runFileV1 (pass : Pass) (f : GoFile) : List Diagnostic :=
  if hasTestSuffix f.fileName then
    flatMapD (processNodeV1 pass f.root) (preorder f.root)
  else []

/-- `run` from src/unnamed/part_001. -/
def runPassV1 (pass : Pass) : List Diagnostic :=
  flatMapD (runFileV1 pass) pass.files

/-! ## Concrete scenarios

Each scenario is a small `Pass` whose type oracle is given by structural
pattern matching on nodes.  Identifiers referring to the same Go object
carry the same `ObjId`; object 0 is always the `*testing.T` receiver
variable `t`.
-/

/-- Scenario for claim C2: `t.Run("", func(){...})` in a test file — the
name argument is the empty string literal (token text `""`). -/
def c2Pass : Pass where
  files := [⟨"c2_test.go", otherN 1 [
    callN 10 20 (selN 11 (idN 12 "t" (some 0)) "Run")
      [litN 14 "\"\"", otherN 15 []]]⟩]
  typeOf := fun n =>
    match n with
    | .mk (.identS _ _ (some 0)) _ => some "*testing.T"
    | _ => none
  constValOf := fun _ => none
  objKind := fun _ => .varObj

/-- Scenario for claim C3: the local variable `x` (object 1) is assigned a
string literal twice (`x := "ok_name"`, then `x = "SecondBad"`) and then
used as `t.Run(x, func(){...})`. -/
def c3Pass : Pass where
  files := [⟨"c3_test.go", otherN 1 [
    assignN 2 [idN 3 "x" (some 1)] [litN 4 "\"ok_name\""],
    assignN 5 [idN 6 "x" (some 1)] [litN 7 "\"SecondBad\""],
    callN 10 20 (selN 11 (idN 12 "t" (some 0)) "Run")
      [idN 13 "x" (some 1), otherN 14 []]]⟩]
  typeOf := fun n =>
    match n with
    | .mk (.identS _ _ (some 0)) _ => some "*testing.T"
    | _ => none
  constValOf := fun _ => none
  objKind := fun _ => .varObj

/-- Scenario for claim C4: `t.Run(pkg.BadConst, func(){...})` — the name
argument is a selector expression that is not table-driven (no range
statement anywhere), but the type oracle folds it to the constant string
`"BadName"`. -/
def c4Pass : Pass where
  files := [⟨"c4_test.go", otherN 1 [
    callN 10 20 (selN 11 (idN 12 "t" (some 0)) "Run")
      [selN 13 (idN 14 "pkg" (some 2)) "BadConst", otherN 15 []]]⟩]
  typeOf := fun n =>
    match n with
    | .mk (.identS _ _ (some 0)) _ => some "*testing.T"
    | _ => none
  constValOf := fun n =>
    match n with
    | .mk (.selS 13 "BadConst") _ => some ⟨GoKind.str, "\"BadName\""⟩
    | _ => none
  objKind := fun o => if o = 2 then .otherObj else .varObj

/-- The decoy receiver for claim C5's witness: a variable of type
`*testlintdata.Runner`, which has a `Run` method but is not a testing
type. -/
def c5wRecv : Node := idN 52 "runner" (some 0)

/-- Scenario for claim C5's witness: `runner.Run("NotATest", func(){...})`
where `runner` is the decoy. -/
def c5wPass : Pass where
  files := [⟨"c5_test.go", otherN 1 [
    callN 50 70 (selN 51 c5wRecv "Run")
      [litN 53 "\"NotATest\"", otherN 54 []]]⟩]
  typeOf := fun n =>
    match n with
    | .mk (.identS _ _ (some 0)) _ => some "*testlintdata.Runner"
    | _ => none
  constValOf := fun _ => none
  objKind := fun _ => .varObj

/-- Scenario for claim C6: a two-row table
`tests := []T{{name: "invalid snake case", want: "foobar"},
{name: "valid_snake_case", want: "foobar"}}` (object 2), iterated by
`for _, tt := range tests` (loop variable object 1) whose body calls
`t.Run(tt.name, func(){...})`.  The first row's `name` value literal sits at
position 8 (its row literal at 5, the collection literal at 4); the second
row's at 15. -/
def c6Pass : Pass where
  files := [⟨"c6_test.go", otherN 1 [
    assignN 2 [idN 3 "tests" (some 2)] [compN 4 [
      compN 5 [kvN 6 (idN 7 "name" none) (litN 8 "\"invalid snake case\""),
               kvN 9 (idN 10 "want" none) (litN 11 "\"foobar\"")],
      compN 12 [kvN 13 (idN 14 "name" none) (litN 15 "\"valid_snake_case\""),
                kvN 16 (idN 17 "want" none) (litN 18 "\"foobar\"")]]],
    rangeN 20 60 (idN 21 "tt" (some 1)) (idN 22 "tests" (some 2)) [
      callN 30 40 (selN 31 (idN 32 "t" (some 0)) "Run")
        [selN 33 (idN 34 "tt" (some 1)) "name", otherN 35 []]]]⟩]
  typeOf := fun n =>
    match n with
    | .mk (.identS _ _ (some 0)) _ => some "*testing.T"
    | _ => none
  constValOf := fun _ => none
  objKind := fun _ => .varObj

/-- Scenario for claim C7: `t.Run("BadName", func(){...})` — the call
expression starts at position 10, the name literal at position 14. -/
def c7Pass : Pass where
  files := [⟨"c7_test.go", otherN 1 [
    callN 10 20 (selN 11 (idN 12 "t" (some 0)) "Run")
      [litN 14 "\"BadName\"", otherN 15 []]]⟩]
  typeOf := fun n =>
    match n with
    | .mk (.identS _ _ (some 0)) _ => some "*testing.T"
    | _ => none
  constValOf := fun _ => none
  objKind := fun _ => .varObj

/-- Scenario for claim C8: the loop variable `tt` (object 4) is an already
declared variable re-bound by two assignment-form range statements:
`for _, tt = range A` (span 20-39), whose body contains
`t.Run(tt.name, func(){...})` (span 25-35) and whose table `A` (object 5)
has the single valid row name `"real_row"`, and a later, empty
`for _, tt = range B` (span 50-60) whose table `B` (object 6) has the
single invalid row name `"Decoy Row"` (value literal at position 15).  Only
the first range statement lexically contains the call. -/
def c8Pass : Pass where
  files := [⟨"c8_test.go", otherN 1 [
    assignN 2 [idN 3 "A" (some 5)]
      [compN 4 [compN 6 [kvN 7 (idN 8 "name" none) (litN 9 "\"real_row\"")]]],
    assignN 40 [idN 41 "B" (some 6)]
      [compN 42 [compN 43 [kvN 44 (idN 45 "name" none)
        (litN 15 "\"Decoy Row\"")]]],
    rangeN 20 39 (idN 21 "tt" (some 4)) (idN 22 "A" (some 5)) [
      callN 25 35 (selN 26 (idN 27 "t" (some 0)) "Run")
        [selN 28 (idN 29 "tt" (some 4)) "name", otherN 30 []]],
    rangeN 50 60 (idN 51 "tt" (some 4)) (idN 52 "B" (some 6)) []]⟩]
  typeOf := fun n =>
    match n with
    | .mk (.identS _ _ (some 0)) _ => some "*testing.T"
    | _ => none
  constValOf := fun _ => none
  objKind := fun _ => .varObj

/-- Scenario for claim C10: `t.Run(pkg.Bad10Const, func(){...})` — a
selector name argument with no enclosing range statement, folded by the
type oracle to the constant string `"Bad10"`. -/
def c10Pass : Pass where
  files := [⟨"c10_test.go", otherN 1 [
    callN 100 120 (selN 101 (idN 102 "t" (some 0)) "Run")
      [selN 103 (idN 104 "pkg" (some 2)) "Bad10Const", otherN 105 []]]⟩]
  typeOf := fun n =>
    match n with
    | .mk (.identS _ _ (some 0)) _ => some "*testing.T"
    | _ => none
  constValOf := fun n =>
    match n with
    | .mk (.selS 103 "Bad10Const") _ => some ⟨GoKind.str, "\"Bad10\""⟩
    | _ => none
  objKind := fun o => if o = 2 then .otherObj else .varObj

/-- Witness scenario for the amended claim C10: a direct string-literal
sub-test name only, trivial oracles. -/
def w10Pass : Pass where
  files := [⟨"w10_test.go", otherN 1 [
    callN 200 220 (selN 201 (idN 202 "t" (some 0)) "Run")
      [litN 204 "\"Mixed Case\"", otherN 205 []]]⟩]
  typeOf := fun n =>
    match n with
    | .mk (.identS _ _ (some 0)) _ => some "*testing.T"
    | _ => none
  constValOf := fun _ => none
  objKind := fun _ => .varObj

/-! ### Side conditions for the refinement between the two entry points -/

/-- No call node passes a selector expression as its first argument. -/
def noSelectorFirstArg (n : Node) : Bool :=
  match isCall n with
  | some (_, _, _, firstArg :: _) => (isSelectorNode firstArg).isNone
  | _ => true

/-- Consistency of the `go/types` oracles at one expression, as guaranteed
by the real `go/types` package at a sub-test name argument (a string-typed
position): a `Types[..].Value` constant of the expression is of string
kind; if the expression is an identifier whose object is a variable it has
no `Types[..].Value`; if it is an identifier whose object is a constant,
that constant's value is its `Types[..].Value`. -/
def ConsistentAt (pass : Pass) (e : Node) : Prop :=
  (∀ cv, pass.constValOf e = some cv → cv.kind = GoKind.str) ∧
  (∀ nm o, isIdent e = some (nm, some o) → pass.objKind o = ObjKind.varObj →
    pass.constValOf e = none) ∧
  (∀ nm o cv, isIdent e = some (nm, some o) →
    pass.objKind o = ObjKind.constObj cv → pass.constValOf e = some cv)

/-- The node is not a candidate sub-test call with a selector name
argument, and its name argument (if it is a candidate at all — a `Run`
call on a testing-typed receiver with at least two arguments) sees a
consistent oracle.  Non-candidate nodes satisfy this vacuously. -/
def CandidateDirectOk (pass : Pass) (n : Node) : Prop :=
  ∀ (p e : Pos) (fn : Node) (args : List Node) (sp : Pos)
    (x firstArg : Node) (rest : List Node),
    isCall n = some (p, e, fn, args) →
    isSelectorNode fn = some (sp, x, "Run") →
    isTestingType pass x = true →
    args = firstArg :: rest →
    1 ≤ rest.length →
    isSelectorNode firstArg = none ∧ ConsistentAt pass firstArg

/-! ## Theorems -/

theorem matchSeg_nil : matchSeg [] = false := rfl

theorem matchSeg_cons (c : Char) (cs : List Char) :
    matchSeg (c :: cs) = (isLowerAlnum c && matchAfter cs) := rfl

theorem matchAfter_nil : matchAfter [] = true := rfl

theorem matchAfter_cons (c : Char) (cs : List Char) :
    matchAfter (c :: cs) =
      (if isLowerAlnum c then matchAfter cs
       else if c = '_' then matchSeg cs else false) := rfl

theorem isLowerAlnum_not_upper {c : Char} (h : isLowerAlnum c = true) :
    goIsUpper c = false := by
  simp only [isLowerAlnum, Bool.or_eq_true, Bool.and_eq_true,
    decide_eq_true_eq] at h
  simp only [goIsUpper, Bool.and_eq_false_iff, decide_eq_false_iff_not]
  omega

theorem isLowerAlnum_underscore : isLowerAlnum '_' = false := by decide

theorem goIsUpper_underscore : goIsUpper '_' = false := by decide

theorem snakeGrammar_nil : ¬ SnakeGrammar [] := by
  rintro ⟨seg, segs, ⟨hne, _⟩, _, heq⟩
  rcases List.append_eq_nil.mp heq.symm with ⟨h1, _⟩
  exact hne h1

theorem afterSpec_cons_alnum {c : Char} {cs : List Char}
    (hc : isLowerAlnum c = true) : AfterSpec (c :: cs) ↔ AfterSpec cs := by
  constructor
  · rintro ⟨pre, segs, hpre, hsegs, heq⟩
    cases pre with
    | nil =>
      cases segs with
      | nil => simp [flatMapD] at heq
      | cons t ts =>
        simp only [List.nil_append, flatMapD, List.cons_append,
          List.cons.injEq] at heq
        rw [heq.1] at hc
        rw [isLowerAlnum_underscore] at hc
        exact absurd hc (by simp)
    | cons p pre' =>
      simp only [List.cons_append, List.cons.injEq] at heq
      exact ⟨pre', segs, fun x hx => hpre x (List.mem_cons_of_mem p hx),
        hsegs, heq.2⟩
  · rintro ⟨pre, segs, hpre, hsegs, heq⟩
    exact ⟨c :: pre, segs, by
      intro x hx
      rcases List.mem_cons.mp hx with h | h
      · rwa [h]
      · exact hpre x h, hsegs, by rw [heq]; rfl⟩

theorem afterSpec_underscore {cs : List Char} :
    AfterSpec ('_' :: cs) ↔ SnakeGrammar cs := by
  constructor
  · rintro ⟨pre, segs, hpre, hsegs, heq⟩
    cases pre with
    | nil =>
      cases segs with
      | nil => simp [flatMapD] at heq
      | cons t ts =>
        simp only [List.nil_append, flatMapD, List.cons_append,
          List.cons.injEq] at heq
        exact ⟨t, ts, hsegs t (List.mem_cons_self t ts),
          fun x hx => hsegs x (List.mem_cons_of_mem t hx), heq.2⟩
    | cons p pre' =>
      simp only [List.cons_append, List.cons.injEq] at heq
      have hp := hpre p (List.mem_cons_self p pre')
      rw [← heq.1] at hp
      rw [isLowerAlnum_underscore] at hp
      exact absurd hp (by simp)
  · rintro ⟨seg, segs, hseg, hsegs, heq⟩
    refine ⟨[], seg :: segs, by simp, ?_, ?_⟩
    · intro x hx
      rcases List.mem_cons.mp hx with h | h
      · rwa [h]
      · exact hsegs x h
    · simp only [List.nil_append, flatMapD, List.cons_append]
      rw [heq]

theorem afterSpec_bad {c : Char} {cs : List Char}
    (hc : isLowerAlnum c = false) (hu : c ≠ '_') : ¬ AfterSpec (c :: cs) := by
  rintro ⟨pre, segs, hpre, hsegs, heq⟩
  cases pre with
  | nil =>
    cases segs with
    | nil => simp [flatMapD] at heq
    | cons t ts =>
      simp only [List.nil_append, flatMapD, List.cons_append,
        List.cons.injEq] at heq
      exact hu heq.1
  | cons p pre' =>
    simp only [List.cons_append, List.cons.injEq] at heq
    have hp := hpre p (List.mem_cons_self p pre')
    rw [← heq.1] at hp
    rw [hc] at hp
    exact absurd hp (by simp)

theorem snakeGrammar_cons_alnum {c : Char} {cs : List Char}
    (hc : isLowerAlnum c = true) : SnakeGrammar (c :: cs) ↔ AfterSpec cs := by
  constructor
  · rintro ⟨seg, segs, ⟨hne, hall⟩, hsegs, heq⟩
    cases seg with
    | nil => exact absurd rfl hne
    | cons a seg' =>
      simp only [List.cons_append, List.cons.injEq] at heq
      exact ⟨seg', segs, fun x hx => hall x (List.mem_cons_of_mem a hx),
        hsegs, heq.2⟩
  · rintro ⟨pre, segs, hpre, hsegs, heq⟩
    exact ⟨c :: pre, segs, ⟨by simp, by
      intro x hx
      rcases List.mem_cons.mp hx with h | h
      · rwa [h]
      · exact hpre x h⟩, hsegs, by rw [heq]; rfl⟩

theorem snakeGrammar_cons_bad {c : Char} {cs : List Char}
    (hc : isLowerAlnum c = false) : ¬ SnakeGrammar (c :: cs) := by
  rintro ⟨seg, segs, ⟨hne, hall⟩, hsegs, heq⟩
  cases seg with
  | nil => exact absurd rfl hne
  | cons a seg' =>
    simp only [List.cons_append, List.cons.injEq] at heq
    have ha := hall a (List.mem_cons_self a seg')
    rw [← heq.1] at ha
    rw [hc] at ha
    exact absurd ha (by simp)

/-- The matcher recognises exactly the grammar (both entry states). -/
theorem match_spec (l : List Char) :
    (matchAfter l = true ↔ AfterSpec l) ∧ (matchSeg l = true ↔ SnakeGrammar l) := by
  induction l with
  | nil =>
    constructor
    · rw [matchAfter_nil]
      exact iff_of_true rfl ⟨[], [], by simp, by simp, rfl⟩
    · rw [matchSeg_nil]
      exact iff_of_false (by simp) snakeGrammar_nil
  | cons c cs ih =>
    obtain ⟨ihA, ihS⟩ := ih
    constructor
    · rw [matchAfter_cons]
      by_cases hc : isLowerAlnum c = true
      · rw [if_pos hc, ihA, afterSpec_cons_alnum hc]
      · have hc' : isLowerAlnum c = false := by
          cases h : isLowerAlnum c
          · rfl
          · exact absurd h hc
        rw [if_neg (by simp [hc'])]
        by_cases hu : c = '_'
        · subst hu
          rw [if_pos rfl, ihS, afterSpec_underscore]
        · rw [if_neg hu]
          exact iff_of_false (by simp) (afterSpec_bad hc' hu)
    · rw [matchSeg_cons]
      by_cases hc : isLowerAlnum c = true
      · rw [hc, Bool.true_and, ihA, snakeGrammar_cons_alnum hc]
      · have hc' : isLowerAlnum c = false := by
          cases h : isLowerAlnum c
          · rfl
          · exact absurd h hc
        rw [hc', Bool.false_and]
        exact iff_of_false (by simp) (snakeGrammar_cons_bad hc')

/-- Strings accepted by the matcher contain no upper-case character. -/
theorem match_noUpper (l : List Char) :
    (matchAfter l = true → l.any goIsUpper = false) ∧
      (matchSeg l = true → l.any goIsUpper = false) := by
  induction l with
  | nil => exact ⟨fun _ => rfl, fun h => by rw [matchSeg_nil] at h; exact absurd h (by simp)⟩
  | cons c cs ih =>
    obtain ⟨ihA, ihS⟩ := ih
    constructor
    · intro h
      rw [matchAfter_cons] at h
      by_cases hc : isLowerAlnum c = true
      · rw [if_pos hc] at h
        simp [List.any_cons, isLowerAlnum_not_upper hc, ihA h]
      · have hc' : isLowerAlnum c = false := by
          cases hx : isLowerAlnum c
          · rfl
          · exact absurd hx hc
        rw [if_neg (by simp [hc'])] at h
        by_cases hu : c = '_'
        · subst hu
          rw [if_pos rfl] at h
          simp [List.any_cons, goIsUpper_underscore, ihS h]
        · rw [if_neg hu] at h
          exact absurd h (by simp)
    · intro h
      rw [matchSeg_cons, Bool.and_eq_true] at h
      simp [List.any_cons, isLowerAlnum_not_upper h.1, ihA h.2]

/-- Claim C1: `isValidSnakeCase` returns `true` exactly on the strings of
the snake_case grammar (one or more runs of lower-case-letter-or-digit
joined by single underscores — hence no leading, trailing or doubled
underscore, at least one non-underscore character, and no upper-case
character), and in particular decides the seven listed example strings as
stated. -/
theorem C1_validator_grammar :
    (∀ s : String, isValidSnakeCase s = true ↔ SnakeGrammar s.data) ∧
    isValidSnakeCase "add_positive_numbers" = true ∧
    isValidSnakeCase "AddPositiveNumbers" = false ∧
    isValidSnakeCase "_leading" = false ∧
    isValidSnakeCase "trailing_" = false ∧
    isValidSnakeCase "double__underscore" = false ∧
    isValidSnakeCase "test123" = true ∧
    isValidSnakeCase "" = false := by
  refine ⟨?_, by decide, by decide, by decide, by decide, by decide,
    by decide, by decide⟩
  intro s
  unfold isValidSnakeCase
  by_cases hnil : s.data = []
  · rw [if_pos hnil, hnil]
    exact iff_of_false (by simp) snakeGrammar_nil
  · rw [if_neg hnil]
    by_cases hup : s.data.any goIsUpper = true
    · rw [if_pos hup]
      refine iff_of_false (by simp) ?_
      intro hg
      have hm : matchSeg s.data = true := (match_spec s.data).2.mpr hg
      rw [(match_noUpper s.data).2 hm] at hup
      exact absurd hup (by simp)
    · rw [if_neg hup]
      exact (match_spec s.data).2

/-- Claim C9: the preliminary upper-case scan (and the empty-string check)
never change the outcome — `isValidSnakeCase` agrees with the regular
expression `^[a-z0-9]+(_[a-z0-9]+)*$` (embedded as `matchSeg`) alone on
every string. -/
theorem C9_validator_regex_only :
    ∀ s : String, isValidSnakeCase s = matchSeg s.data := by
  intro s
  unfold isValidSnakeCase
  by_cases hnil : s.data = []
  · rw [if_pos hnil, hnil, matchSeg_nil]
  · rw [if_neg hnil]
    by_cases hup : s.data.any goIsUpper = true
    · rw [if_pos hup]
      cases hm : matchSeg s.data
      · rfl
      · rw [(match_noUpper s.data).2 hm] at hup
        exact absurd hup (by simp)
    · rw [if_neg hup]

/-! ### Claim C5: decoy-type immunity -/

/-- Claim C5: a call `obj.Run(name, body)` whose receiver's static type is
not exactly one of `*testing.T`, `*testing.B`, `*testing.F` contributes no
diagnostic, regardless of the name argument (`runPass` is the concatenation
of `processNode` over all visited nodes, so a call with a non-testing
receiver never contributes). -/
theorem C5_decoy_type_immunity (pass : Pass) (p e sp : Pos) (x : Node)
    (args : List Node)
    (h1 : pass.typeOf x ≠ some "*testing.T")
    (h2 : pass.typeOf x ≠ some "*testing.B")
    (h3 : pass.typeOf x ≠ some "*testing.F") :
    processNode pass (callN p e (selN sp x "Run") args) = [] := by
  have ht : isTestingType pass x = false := by
    cases hx : pass.typeOf x with
    | none => simp [isTestingType, hx]
    | some t =>
      have hne : ¬(t = "*testing.T" ∨ t = "*testing.B" ∨ t = "*testing.F") := by
        rintro (rfl | rfl | rfl)
        · exact h1 hx
        · exact h2 hx
        · exact h3 hx
      simp [isTestingType, hx, hne]
  simp [processNode, callN, selN, isCall, isSelectorNode, ht]

/-- Witness for C5: the decoy `runner.Run("NotATest", func(){...})` with
receiver type `*testlintdata.Runner` produces no diagnostic. -/
theorem C5_witness :
    processNode c5wPass (callN 50 70 (selN 51 c5wRecv "Run")
      [litN 53 "\"NotATest\"", otherN 54 []]) = [] :=
  C5_decoy_type_immunity c5wPass 50 70 51 c5wRecv
    [litN 53 "\"NotATest\"", otherN 54 []]
    (by decide) (by decide) (by decide)

/-! ### Claim C6: the two-row table scenario -/

/-- Claim C6: on the two-row table of `c6Pass` the scan emits exactly one
diagnostic, for the first row's value `"invalid snake case"`, positioned at
the first row's name-field value literal (position 8 — not the row literal's
position 5, not the collection literal's position 4, not the call's position
30), and none for the second row; the extraction returns both rows, each at
its value expression's position. -/
theorem C6_table_positions :
    runPass c6Pass = [⟨8, "invalid snake case"⟩] ∧
    extractValuesWithPosFromRange c6Pass (idN 34 "tt" (some 1)) "name" =
      [⟨"invalid snake case", 8⟩, ⟨"valid_snake_case", 15⟩] :=
  ⟨rfl, rfl⟩

/-! ### Counterexamples -/

/-- Counterexample to claim C2 as stated: in `c2Pass` the name argument is
the empty string literal; resolution succeeds (`eval` returns `some ""`),
the empty string fails `isValidSnakeCase`, and yet no diagnostic is
emitted — both `strVal`-based paths treat `""` as the unresolved
sentinel. -/
theorem C2_counterexample :
    eval c2Pass (litN 14 "\"\"") = some "" ∧
    isValidSnakeCase "" = false ∧
    runPass c2Pass = [] :=
  ⟨rfl, rfl, rfl⟩

/-- Counterexample to claim C3 as stated: in `c3Pass` the variable `x` has
two string-literal assignments in scope, yet resolution succeeds (with the
second assignment's value `"SecondBad"`) and a diagnostic is emitted. -/
theorem C3_counterexample :
    findVarDecl c3Pass (idN 13 "x" (some 1)) = "SecondBad" ∧
    runPass c3Pass = [⟨10, "SecondBad"⟩] :=
  ⟨rfl, rfl⟩

/-- Counterexample to claim C4 as stated: in `c4Pass` the selector name
argument's table extraction yields zero values, yet the call is not
abandoned: it falls through to direct resolution, the type oracle folds the
selector to the constant string `"BadName"`, and a diagnostic is
emitted. -/
theorem C4_counterexample :
    extractValuesWithPosFromRange c4Pass (idN 14 "pkg" (some 2)) "BadConst"
      = [] ∧
    runPass c4Pass = [⟨10, "BadName"⟩] :=
  ⟨rfl, rfl⟩

/-- Counterexample to claim C7 as stated: in `c7Pass` the literal name
argument sits at position 14 but the diagnostic is anchored at the call
expression's position 10. -/
theorem C7_counterexample :
    runPass c7Pass = [⟨10, "BadName"⟩] ∧
    nodePos (litN 14 "\"BadName\"") = 14 ∧ (10 : Pos) ≠ 14 :=
  ⟨rfl, rfl, by decide⟩

/-- Counterexample to claim C8 as stated: in `c8Pass` the only range
statement whose body lexically contains the candidate call (span 25-35) is
the one spanning 20-39 over table `A` (single row `"real_row"`, valid); the
code nevertheless extracts from the later range statement spanning 50-60
over table `B` — which does not contain the call — because it matches the
loop variable's object and is the last such match, and diagnoses `B`'s row
`"Decoy Row"`. -/
theorem C8_counterexample :
    extractValuesWithPosFromRange c8Pass (idN 29 "tt" (some 4)) "name" =
      [⟨"Decoy Row", 15⟩] ∧
    runPass c8Pass = [⟨15, "Decoy Row"⟩] :=
  ⟨rfl, rfl⟩

/-- Counterexample to claim C10 as stated: on `c10Pass` (a selector name
argument whose table extraction yields nothing, folded by the type oracle
to a constant string) the src/testsnake.go entry point emits a diagnostic
while the src/unnamed/part_001 entry point emits none. -/
theorem C10_counterexample :
    runPass c10Pass = [⟨100, "Bad10"⟩] ∧
    runPassV1 c10Pass = [] :=
  ⟨rfl, rfl⟩

/-! ### Unfolding lemmas for the traversal -/

theorem preorder_mk (s : Shape) (ks : List Node) :
    preorder (.mk s ks) = .mk s ks :: preorderList ks := rfl

theorem preorderList_nil : preorderList [] = [] := rfl

theorem preorderList_cons (k : Node) (ks : List Node) :
    preorderList (k :: ks) = preorder k ++ preorderList ks := rfl

theorem inspectUpd_mk {α : Type} (pick : Node → Option α) (acc : α)
    (s : Shape) (ks : List Node) :
    inspectUpd pick acc (.mk s ks) =
      match pick (.mk s ks) with
      | some a => a
      | none => inspectUpdList pick acc ks := rfl

theorem inspectUpdList_nil {α : Type} (pick : Node → Option α) (acc : α) :
    inspectUpdList pick acc [] = acc := rfl

theorem inspectUpdList_cons {α : Type} (pick : Node → Option α) (acc : α)
    (k : Node) (ks : List Node) :
    inspectUpdList pick acc (k :: ks) =
      inspectUpdList pick (inspectUpd pick acc k) ks := rfl

/-! ### The result of a pruning search is the initial value or a pick -/

mutual

theorem inspectUpd_spec {α : Type} (pick : Node → Option α) (acc : α) :
    (n : Node) → inspectUpd pick acc n = acc ∨
      ∃ m, m ∈ preorder n ∧ pick m = some (inspectUpd pick acc n)
  | .mk s ks => by
    cases hp : pick (.mk s ks) with
    | some a =>
      have he : inspectUpd pick acc (.mk s ks) = a := by
        rw [inspectUpd_mk, hp]
      refine Or.inr ⟨.mk s ks, ?_, ?_⟩
      · rw [preorder_mk]
        exact List.mem_cons_self _ _
      · rw [he, hp]
    | none =>
      have he : inspectUpd pick acc (.mk s ks) = inspectUpdList pick acc ks := by
        rw [inspectUpd_mk, hp]
      rcases inspectUpdList_spec pick acc ks with h | ⟨m, hm, hpm⟩
      · exact Or.inl (he.trans h)
      · refine Or.inr ⟨m, ?_, ?_⟩
        · rw [preorder_mk]
          exact List.mem_cons_of_mem _ hm
        · rw [he]
          exact hpm

theorem inspectUpdList_spec {α : Type} (pick : Node → Option α) :
    (acc : α) → (ks : List Node) → inspectUpdList pick acc ks = acc ∨
      ∃ m, m ∈ preorderList ks ∧ pick m = some (inspectUpdList pick acc ks)
  | _, [] => Or.inl rfl
  | acc, k :: ks => by
    rw [inspectUpdList_cons]
    rcases inspectUpdList_spec pick (inspectUpd pick acc k) ks with h | ⟨m, hm, hpm⟩
    · rw [h]
      rcases inspectUpd_spec pick acc k with h2 | ⟨m, hm2, hpm2⟩
      · exact Or.inl h2
      · refine Or.inr ⟨m, ?_, hpm2⟩
        rw [preorderList_cons]
        exact List.mem_append_left _ hm2
    · refine Or.inr ⟨m, ?_, hpm⟩
      rw [preorderList_cons]
      exact List.mem_append_right _ hm

end

/-- The per-file loop of `findVarDecl`: the final result is the initial
accumulator, or the value of some pick on some node of some file. -/
theorem searchFilesStr_spec (pick : Node → Option String) :
    ∀ (fs : List GoFile) (acc : String),
      searchFilesStr pick fs acc = acc ∨
        ∃ f, f ∈ fs ∧ ∃ m, m ∈ preorder f.root ∧
          pick m = some (searchFilesStr pick fs acc)
  | [], acc => Or.inl rfl
  | f :: fs, acc => by
    have he : searchFilesStr pick (f :: fs) acc =
        if inspectUpd pick acc f.root = "" then
          searchFilesStr pick fs (inspectUpd pick acc f.root)
        else inspectUpd pick acc f.root := rfl
    by_cases h0 : inspectUpd pick acc f.root = ""
    · rw [he, if_pos h0, h0]
      rcases searchFilesStr_spec pick fs "" with h | ⟨f2, hf2, m, hm, hpm⟩
      · rw [h]
        rcases inspectUpd_spec pick acc f.root with h2 | ⟨m, hm, hpm⟩
        · rw [h0] at h2
          exact Or.inl h2
        · rw [h0] at hpm
          exact Or.inr ⟨f, List.mem_cons_self _ _, m, hm, hpm⟩
      · exact Or.inr ⟨f2, List.mem_cons_of_mem _ hf2, m, hm, hpm⟩
    · rw [he, if_neg h0]
      rcases inspectUpd_spec pick acc f.root with h2 | ⟨m, hm, hpm⟩
      · exact Or.inl h2
      · exact Or.inr ⟨f, List.mem_cons_self _ _, m, hm, hpm⟩

theorem optPick_some {α : Type} {pick : Node → Option α} {m : Node}
    {x : Option α} (h : optPick pick m = some x) :
    ∃ a, x = some a ∧ pick m = some a := by
  unfold optPick at h
  cases hp : pick m with
  | none => rw [hp] at h; exact absurd h (by simp)
  | some a =>
    rw [hp] at h
    exact ⟨a, (Option.some_injective _ h).symm, rfl⟩

/-- The per-file loop of the range/collection searches in
`extractValuesWithPosFromRange`: the final result is the initial
accumulator, or the value of some pick on some node of some file. -/
theorem searchFilesOpt_spec {α : Type} (pick : Node → Option α) :
    ∀ (fs : List GoFile) (acc : Option α),
      searchFilesOpt pick fs acc = acc ∨
        ∃ f, f ∈ fs ∧ ∃ m, m ∈ preorder f.root ∧ ∃ a,
          pick m = some a ∧ searchFilesOpt pick fs acc = some a
  | [], acc => Or.inl rfl
  | f :: fs, acc => by
    have he : searchFilesOpt pick (f :: fs) acc =
        match inspectUpd (optPick pick) acc f.root with
        | some a => some a
        | none => searchFilesOpt pick fs none := rfl
    cases h0 : inspectUpd (optPick pick) acc f.root with
    | some a =>
      have he2 : searchFilesOpt pick (f :: fs) acc = some a := by
        rw [he, h0]
      rcases inspectUpd_spec (optPick pick) acc f.root with h2 | ⟨m, hm, hpm⟩
      · rw [h0] at h2
        exact Or.inl (he2.trans h2)
      · rw [h0] at hpm
        rcases optPick_some hpm with ⟨b, hb, hpb⟩
        refine Or.inr ⟨f, List.mem_cons_self _ _, m, hm, b, hpb, ?_⟩
        rw [he2, hb]
    | none =>
      have he2 : searchFilesOpt pick (f :: fs) acc =
          searchFilesOpt pick fs none := by
        rw [he, h0]
      rcases searchFilesOpt_spec pick fs none with h | ⟨f2, hf2, m, hm, b, hpb, hres⟩
      · rcases inspectUpd_spec (optPick pick) acc f.root with h2 | ⟨m, hm, hpm⟩
        · rw [h0] at h2
          rw [he2, h, ← h2]
          exact Or.inl rfl
        · rw [h0] at hpm
          rcases optPick_some hpm with ⟨b, hb, _⟩
          exact absurd hb (by simp)
      · exact Or.inr ⟨f2, List.mem_cons_of_mem _ hf2, m, hm, b, hpb,
          he2.trans hres⟩

/-! ### Destructor computation lemmas -/

theorem isCall_callN (p e : Pos) (fn : Node) (args : List Node) :
    isCall (callN p e fn args) = some (p, e, fn, args) := rfl

theorem isSelectorNode_selN (sp : Pos) (x : Node) (s : String) :
    isSelectorNode (selN sp x s) = some (sp, x, s) := rfl

theorem isSelectorNode_litN (p : Pos) (v : String) :
    isSelectorNode (litN p v) = none := rfl

theorem isIdent_idN (p : Pos) (nm : String) (o : Option ObjId) :
    isIdent (idN p nm o) = some (nm, o) := rfl

theorem isBasicLit_litN (p : Pos) (v : String) :
    isBasicLit (litN p v) = some (p, v) := rfl

/-! ### Claim C2 (amended) -/

/-- Diagnostics produced by the direct path always carry a non-empty name
(the `testName == ""` guard). -/
theorem directPath_name_nonempty (pass : Pass) (cp : Pos) (a : Node) :
    ∀ d ∈ directPath pass cp a, d.name ≠ "" := by
  intro d hd
  simp only [directPath] at hd
  split at hd
  · exact absurd hd (by simp)
  · split at hd
    · exact absurd hd (by simp)
    · next h1 _ =>
      simp only [List.mem_singleton] at hd
      subst hd
      exact h1

/-- No diagnostic emitted by the visitor — on either the direct or the
table-driven path — carries an empty name: the empty string is handled
exactly like the unresolved outcome. -/
theorem processNode_name_nonempty (pass : Pass) (n : Node) :
    ∀ d ∈ processNode pass n, d.name ≠ "" := by
  intro d hd
  simp only [processNode] at hd
  split at hd
  · exact absurd hd (by simp)
  · split at hd
    · exact absurd hd (by simp)
    · split at hd
      · split at hd
        · split at hd
          · split at hd
            · exact absurd hd (by simp)
            · split at hd
              · split at hd
                · split at hd
                  · rcases List.mem_filterMap.mp hd with ⟨a, _, hfa⟩
                    split at hfa
                    · next hcond =>
                      injection hfa with h5
                      rw [← h5]
                      exact hcond.1
                    · exact absurd hfa (by simp)
                  · exact directPath_name_nonempty pass _ _ d hd
                · exact directPath_name_nonempty pass _ _ d hd
              · exact directPath_name_nonempty pass _ _ d hd
          · exact absurd hd (by simp)
        · exact absurd hd (by simp)
      · exact absurd hd (by simp)

/-- Claim C2, amended: every *non-empty* name value obtained by resolution
that fails `isValidSnakeCase` causes a diagnostic — one value on the direct
path (diagnosed at the call's position) and each extracted row value on the
table-driven path (diagnosed at the row value's position) — while a value
resolving to the empty string (a successful resolution) is treated exactly
like the unresolved outcome: it is skipped on the direct path and no
diagnostic of the visitor ever carries an empty name (the implementations
use `""` as the unresolved sentinel). -/
theorem C2_amended_empty_skipped :
    (∀ (pass : Pass) (p e sp : Pos) (x firstArg : Node) (rest : List Node)
      (v : String),
      isSelectorNode firstArg = none →
      isTestingType pass x = true →
      rest ≠ [] →
      eval pass firstArg = some v → v ≠ "" → isValidSnakeCase v = false →
      processNode pass (callN p e (selN sp x "Run") (firstArg :: rest)) =
        [⟨p, v⟩]) ∧
    (∀ (pass : Pass) (p e sp : Pos) (x firstArg : Node) (rest : List Node),
      isSelectorNode firstArg = none →
      eval pass firstArg = some "" →
      processNode pass (callN p e (selN sp x "Run") (firstArg :: rest)) = []) ∧
    (∀ (pass : Pass) (p e sp sp2 : Pos) (x sx : Node) (fld : String)
      (rest : List Node) (tc : ValueWithPos),
      isTestingType pass x = true →
      rest ≠ [] →
      tc ∈ extractValuesWithPosFromRange pass sx fld →
      tc.value ≠ "" → isValidSnakeCase tc.value = false →
      (⟨tc.pos, tc.value⟩ : Diagnostic) ∈
        processNode pass
          (callN p e (selN sp x "Run") (selN sp2 sx fld :: rest))) ∧
    (∀ (pass : Pass) (n : Node), ∀ d ∈ processNode pass n, d.name ≠ "") := by
  refine ⟨?_, ?_, ?_, fun pass n => processNode_name_nonempty pass n⟩
  · intro pass p e sp x firstArg rest v hsel hT hr hv hvne hvalid
    have hlen : 1 ≤ rest.length := List.length_pos.mpr hr
    simp [processNode, isCall_callN, isSelectorNode_selN, hT, hsel, hlen,
      directPath, strVal, hv, hvne, hvalid]
  · intro pass p e sp x firstArg rest hsel hv
    cases hT : isTestingType pass x with
    | false => simp [processNode, isCall_callN, isSelectorNode_selN, hT]
    | true =>
      by_cases hlen : 1 ≤ rest.length
      · simp [processNode, isCall_callN, isSelectorNode_selN, hT, hsel,
          hlen, directPath, strVal, hv]
      · simp [processNode, isCall_callN, isSelectorNode_selN, hT, hlen]
  · intro pass p e sp sp2 x sx fld rest tc hT hr htc hne hval
    have hlen : 1 ≤ rest.length := List.length_pos.mpr hr
    cases hid : isIdent sx with
    | none =>
      have hz : extractValuesWithPosFromRange pass sx fld = [] := by
        unfold extractValuesWithPosFromRange
        rw [hid]
      rw [hz] at htc
      exact absurd htc (by simp)
    | some q =>
      obtain ⟨nm, o⟩ := q
      cases o with
      | none =>
        have hz : extractValuesWithPosFromRange pass sx fld = [] := by
          unfold extractValuesWithPosFromRange
          rw [hid]
        rw [hz] at htc
        exact absurd htc (by simp)
      | some obj =>
        have hpos : 0 < (extractValuesWithPosFromRange pass sx fld).length :=
          List.length_pos.mpr (List.ne_nil_of_mem htc)
        have hsome : (isIdent sx).isSome = true := by rw [hid]; rfl
        simp only [processNode, isCall_callN, isSelectorNode_selN]
        simp [hT, hlen, hsome, hpos]
        exact ⟨tc, htc, by simp [hne, hval]⟩

/-- Witness for the amended C2: a direct literal `"Wrong Name"` is
diagnosed at the call position. -/
theorem C2_witness :
    processNode c2Pass (callN 70 90 (selN 71 (idN 72 "t" (some 0)) "Run")
      [litN 74 "\"Wrong Name\"", otherN 75 []]) = [⟨70, "Wrong Name"⟩] :=
  C2_amended_empty_skipped.1 c2Pass 70 90 71 (idN 72 "t" (some 0))
    (litN 74 "\"Wrong Name\"") [otherN 75 []] "Wrong Name" rfl (by decide)
    (List.cons_ne_nil _ _) rfl (by decide) (by decide)

/-! ### Claim C3 (amended) -/

/-- Claim C3, amended: variable resolution does not require a unique
assignment.  Whenever it succeeds (returns a non-empty value), the value
is the quote-trimmed text of *some* string-literal assignment to the
variable's object in the scanned files — not necessarily a unique one;
when no candidate assignment exists at all the variable is unresolved; and
with several writes the resolver picks one of them rather than declining,
so a diagnostic can be emitted: the doubly-assigned variable of the
`c3Pass` scenario resolves to its second write `"SecondBad"` and the scan
diagnoses it.  (Resolution can still fail with candidates present: an
assignment of the empty literal trims to the `""` sentinel.) -/
theorem C3_amended_some_assignment :
    (∀ (pass : Pass) (p : Pos) (nm : String) (obj : ObjId) (v : String),
      findVarDecl pass (idN p nm (some obj)) = v → v ≠ "" →
      ∃ f, f ∈ pass.files ∧ ∃ m, m ∈ preorder f.root ∧
        findVarDeclPick obj m = some v) ∧
    (∀ (pass : Pass) (p : Pos) (nm : String) (obj : ObjId),
      (∀ f, f ∈ pass.files → ∀ m, m ∈ preorder f.root →
        findVarDeclPick obj m = none) →
      findVarDecl pass (idN p nm (some obj)) = "") ∧
    (findVarDecl c3Pass (idN 13 "x" (some 1)) = "SecondBad" ∧
      runPass c3Pass = [⟨10, "SecondBad"⟩]) := by
  refine ⟨?_, ?_, rfl, rfl⟩
  · intro pass p nm obj v hv hne
    have he : findVarDecl pass (idN p nm (some obj)) =
        searchFilesStr (findVarDeclPick obj) pass.files "" := rfl
    rcases searchFilesStr_spec (findVarDeclPick obj) pass.files "" with
      h | ⟨f, hf, m, hm, hpm⟩
    · exact absurd (hv.symm.trans (he.trans h)) hne
    · refine ⟨f, hf, m, hm, ?_⟩
      rw [← hv, he]
      exact hpm
  · intro pass p nm obj h
    have he : findVarDecl pass (idN p nm (some obj)) =
        searchFilesStr (findVarDeclPick obj) pass.files "" := rfl
    rw [he]
    rcases searchFilesStr_spec (findVarDeclPick obj) pass.files "" with
      h2 | ⟨f, hf, m, hm, hpm⟩
    · exact h2
    · rw [h f hf m hm] at hpm
      exact absurd hpm (by simp)

/-- Witness for the amended C3: the doubly-assigned `x` of `c3Pass`
resolves to `"SecondBad"`, which is indeed the value of one of its
string-literal assignments. -/
theorem C3_witness :
    ∃ f, f ∈ c3Pass.files ∧ ∃ m, m ∈ preorder f.root ∧
      findVarDeclPick 1 m = some "SecondBad" :=
  C3_amended_some_assignment.1 c3Pass 13 "x" 1 "SecondBad" rfl (by decide)

/-! ### Claim C4 (amended) -/

/-- Claim C4, amended: when the table-driven extraction for a selector name
argument yields zero values, the call is not abandoned — it falls through
to direct resolution of the selector (so a selector the type oracle folds
to a constant string can still be diagnosed; only when direct resolution
also declines is the call skipped). -/
theorem C4_amended_fall_through (pass : Pass) (p e sp sp2 : Pos)
    (x sx : Node) (fld : String) (rest : List Node)
    (hT : isTestingType pass x = true)
    (hr : rest ≠ [])
    (hz : extractValuesWithPosFromRange pass sx fld = []) :
    processNode pass (callN p e (selN sp x "Run") (selN sp2 sx fld :: rest)) =
      directPath pass p (selN sp2 sx fld) := by
  have hlen : 1 ≤ rest.length := List.length_pos.mpr hr
  cases hid : isIdent sx with
  | none =>
    simp [processNode, isCall_callN, isSelectorNode_selN, hT, hlen, hid]
  | some q =>
    simp [processNode, isCall_callN, isSelectorNode_selN, hT, hlen, hid, hz]

/-- Witness for the amended C4: the zero-binding selector call of `c4Pass`
is processed exactly as its direct resolution. -/
theorem C4_witness :
    processNode c4Pass (callN 10 20 (selN 11 (idN 12 "t" (some 0)) "Run")
      [selN 13 (idN 14 "pkg" (some 2)) "BadConst", otherN 15 []]) =
      directPath c4Pass 10 (selN 13 (idN 14 "pkg" (some 2)) "BadConst") :=
  C4_amended_fall_through c4Pass 10 20 11 13 (idN 12 "t" (some 0))
    (idN 14 "pkg" (some 2)) "BadConst" [otherN 15 []] (by decide)
    (List.cons_ne_nil _ _) rfl

/-! ### Claim C7 (amended) -/

/-- Claim C7, amended: a quoted string literal name argument resolves to
the literal's token text with its surrounding `"` characters trimmed (the
unquoted text, for escape-free literals), but a failing diagnostic is
anchored at the call expression's position, not at the literal argument's
own position. -/
theorem C7_amended_call_anchor :
    (∀ (pass : Pass) (lp : Pos) (v : String),
      eval pass (litN lp v) = some (trimQuotes v)) ∧
    (∀ (pass : Pass) (p e sp lp : Pos) (x : Node) (v : String)
      (rest : List Node),
      isTestingType pass x = true → rest ≠ [] → trimQuotes v ≠ "" →
      processNode pass (callN p e (selN sp x "Run") (litN lp v :: rest)) =
        if isValidSnakeCase (trimQuotes v) then [] else [⟨p, trimQuotes v⟩]) := by
  constructor
  · intro pass lp v
    rfl
  · intro pass p e sp lp x v rest hT hr hvne
    have hlen : 1 ≤ rest.length := List.length_pos.mpr hr
    have hv : eval pass (litN lp v) = some (trimQuotes v) := rfl
    by_cases hvalid : isValidSnakeCase (trimQuotes v) = true
    · simp [processNode, isCall_callN, isSelectorNode_selN,
        isSelectorNode_litN, hT, hlen, directPath, strVal, hv, hvne, hvalid]
    · have hvalid2 : isValidSnakeCase (trimQuotes v) = false := by
        cases hx : isValidSnakeCase (trimQuotes v)
        · rfl
        · exact absurd hx hvalid
      simp [processNode, isCall_callN, isSelectorNode_selN,
        isSelectorNode_litN, hT, hlen, directPath, strVal, hv, hvne, hvalid2]

/-- Witness for the amended C7: the literal call of `c7Pass`, diagnosed at
the call position 10 with the quote-trimmed text. -/
theorem C7_witness :
    processNode c7Pass (callN 10 20 (selN 11 (idN 12 "t" (some 0)) "Run")
      [litN 14 "\"BadName\"", otherN 15 []]) =
      if isValidSnakeCase (trimQuotes "\"BadName\"") then []
      else [⟨10, trimQuotes "\"BadName\""⟩] :=
  C7_amended_call_anchor.2 c7Pass 10 20 11 14 (idN 12 "t" (some 0))
    "\"BadName\"" [otherN 15 []] (by decide) (List.cons_ne_nil _ _)
    (by decide)

/-! ### Claim C8 (amended) -/

theorem extract_of_no_range {pass : Pass} {p : Pos} {nm fld : String}
    {obj : ObjId}
    (h : searchFilesOpt (rangePick obj) pass.files none = none) :
    extractValuesWithPosFromRange pass (idN p nm (some obj)) fld = [] := by
  simp only [extractValuesWithPosFromRange, isIdent_idN]
  rw [h]

/-- Claim C8, amended: the range statement whose collection is extracted is
matched purely by object identity of the per-element binding variable — the
search ranges over all files, keeps the last match of the first file
containing one, and imposes no requirement that the range statement's body
lexically contain the candidate call.  What holds of the original claim:
extraction yields values only if some range statement binding the loop
variable's object exists somewhere, and when none exists the extraction is
empty (the call then falls through to direct resolution, which declines a
bare selector, so the call is skipped). -/
theorem C8_amended_object_binding :
    (∀ (pass : Pass) (p : Pos) (nm fld : String) (obj : ObjId),
      extractValuesWithPosFromRange pass (idN p nm (some obj)) fld ≠ [] →
      ∃ f, f ∈ pass.files ∧ ∃ m, m ∈ preorder f.root ∧
        (rangePick obj m).isSome = true) ∧
    (∀ (pass : Pass) (p : Pos) (nm fld : String) (obj : ObjId),
      (∀ f, f ∈ pass.files → ∀ m, m ∈ preorder f.root →
        rangePick obj m = none) →
      extractValuesWithPosFromRange pass (idN p nm (some obj)) fld = []) := by
  constructor
  · intro pass p nm fld obj hne
    cases hres : searchFilesOpt (rangePick obj) pass.files none with
    | none => exact absurd (extract_of_no_range hres) hne
    | some rx =>
      rcases searchFilesOpt_spec (rangePick obj) pass.files none with
        h2 | ⟨f, hf, m, hm, a, hpa, _⟩
      · rw [hres] at h2
        exact absurd h2 (by simp)
      · refine ⟨f, hf, m, hm, ?_⟩
        rw [hpa]
        rfl
  · intro pass p nm fld obj h
    rcases searchFilesOpt_spec (rangePick obj) pass.files none with
      h2 | ⟨f, hf, m, hm, a, hpa, _⟩
    · exact extract_of_no_range h2
    · rw [h f hf m hm] at hpa
      exact absurd hpa (by simp)

/-- Witness for the amended C8: the non-empty extraction of `c8Pass` is
backed by a range statement binding the loop variable's object (object 4)
in the file. -/
theorem C8_witness :
    ∃ f, f ∈ c8Pass.files ∧ ∃ m, m ∈ preorder f.root ∧
      (rangePick 4 m).isSome = true :=
  C8_amended_object_binding.1 c8Pass 29 "tt" "name" 4 (by decide)

/-! ### Claim C10 (amended): agreement of the two entry points -/

theorem isIdent_isSelectorNode {e : Node} {q : String × Option ObjId}
    (h : isIdent e = some q) : isSelectorNode e = none := by
  cases e with
  | mk s ks =>
    cases s <;> first
      | rfl
      | exact absurd h (by simp [isIdent])

/-- At an expression where the type oracle is consistent, the two
resolvers agree: `strVal` (the `eval`-based resolver of src/testsnake.go,
with `""` for unresolved) returns exactly `getStringValue`
(src/unnamed/part_001). -/
theorem strVal_eq_getStringValue (pass : Pass) (e : Node)
    (hco : ConsistentAt pass e) : strVal pass e = getStringValue pass e := by
  obtain ⟨h1, h2, h3⟩ := hco
  cases hlit : isBasicLit e with
  | some pv =>
    obtain ⟨lp, v⟩ := pv
    simp [strVal, eval, getStringValue, hlit]
  | none =>
    cases hcv : pass.constValOf e with
    | some cv =>
      have hk : cv.kind = GoKind.str := h1 cv hcv
      have hev : strVal pass e = trimQuotes cv.repr := by
        simp [strVal, eval, hlit, hcv, hk]
      rw [hev]
      cases hid : isIdent e with
      | none => simp [getStringValue, hlit, hid, gsvTypes, hcv]
      | some q =>
        obtain ⟨nm, o⟩ := q
        cases o with
        | none => simp [getStringValue, hlit, hid, gsvTypes, hcv]
        | some oid =>
          cases hok : pass.objKind oid with
          | constObj cv2 =>
            have h4 := h3 nm oid cv2 hid hok
            rw [hcv] at h4
            have hcc : cv = cv2 := by
              injection h4.symm with h5
              exact h5.symm
            simp [getStringValue, hlit, hid, hok, hcc]
          | varObj =>
            have h4 := h2 nm oid hid hok
            rw [hcv] at h4
            exact absurd h4 (by simp)
          | otherObj =>
            simp [getStringValue, hlit, hid, hok, gsvTypes, hcv]
    | none =>
      have hev : strVal pass e = (evalOther pass e).getD "" := by
        simp [strVal, eval, hlit, hcv]
      rw [hev]
      cases hid : isIdent e with
      | none =>
        by_cases hsel : (isSelectorNode e).isSome
        · simp [evalOther, hsel, getStringValue, hlit, hid, gsvTypes, hcv]
        · simp [evalOther, hsel, hid, getStringValue, hlit, gsvTypes, hcv]
      | some q =>
        obtain ⟨nm, o⟩ := q
        have hsel : isSelectorNode e = none := isIdent_isSelectorNode hid
        cases o with
        | none =>
          simp [evalOther, hsel, hid, getStringValue, hlit, gsvTypes, hcv]
        | some oid =>
          cases hok : pass.objKind oid with
          | constObj cv2 =>
            have h4 := h3 nm oid cv2 hid hok
            rw [hcv] at h4
            exact absurd h4 (by simp)
          | varObj =>
            by_cases hd : findVarDecl pass e = ""
            · simp [evalOther, hsel, hid, hok, hd, getStringValue, hlit,
                gsvTypes, hcv]
            · simp [evalOther, hsel, hid, hok, hd, getStringValue, hlit]
          | otherObj =>
            simp [evalOther, hsel, hid, hok, getStringValue, hlit,
              gsvTypes, hcv]

/-- The two visitors agree on every node that satisfies
`CandidateDirectOk`: non-candidates produce no diagnostics under either,
and a candidate with a non-selector name argument and a consistent oracle
at it produces the same direct-path diagnostics. -/
theorem processNode_eq_V1 (pass : Pass) (root n : Node)
    (hn : CandidateDirectOk pass n) :
    processNode pass n = processNodeV1 pass root n := by
  cases hc : isCall n with
  | none => simp [processNode, processNodeV1, hc]
  | some q =>
    obtain ⟨p, e, fn, args⟩ := q
    cases hs : isSelectorNode fn with
    | none => simp [processNode, processNodeV1, hc, hs]
    | some q2 =>
      obtain ⟨sp, x, selName⟩ := q2
      by_cases hrun : selName = "Run"
      · subst hrun
        cases hT : isTestingType pass x with
        | false => simp [processNode, processNodeV1, hc, hs, hT]
        | true =>
          cases args with
          | nil => simp [processNode, processNodeV1, hc, hs, hT]
          | cons firstArg rest =>
            by_cases hlen : 1 ≤ rest.length
            · obtain ⟨hfa, hca⟩ :=
                hn p e fn (firstArg :: rest) sp x firstArg rest hc hs hT rfl
                  hlen
              have hgd := strVal_eq_getStringValue pass firstArg hca
              simp [processNode, processNodeV1, hc, hs, hT, hlen, hfa,
                directPath, directPathV1, hgd]
            · simp [processNode, processNodeV1, hc, hs, hT, hlen]
      · simp [processNode, processNodeV1, hc, hs, hrun]

theorem flatMapD_congr {α β : Type} {f g : α → List β} :
    ∀ l : List α, (∀ a, a ∈ l → f a = g a) → flatMapD f l = flatMapD g l
  | [], _ => rfl
  | a :: as, h => by
    simp only [flatMapD]
    rw [h a (List.mem_cons_self a as),
      flatMapD_congr as fun b hb => h b (List.mem_cons_of_mem a hb)]

/-- Claim C10, amended: the two entry points do not agree in general (see
the counterexample); they emit the same diagnostics at the same positions
in the same order on every input in which no candidate call (a `Run` call
on a testing-typed receiver with at least two arguments) passes a selector
expression as its name argument and the type oracle is consistent at each
candidate's name argument — non-candidate calls and the rest of the input
are unrestricted.  On selector name arguments the selector/table paths of
the two implementations differ (range anchoring, fall-through, empty-name
handling and output ordering). -/
theorem C10_amended_direct_agreement (pass : Pass)
    (h : ∀ f, f ∈ pass.files → ∀ m, m ∈ preorder f.root →
      CandidateDirectOk pass m) :
    runPass pass = runPassV1 pass := by
  unfold runPass runPassV1
  refine flatMapD_congr pass.files ?_
  intro f hf
  unfold runFile runFileV1
  by_cases hsuf : hasTestSuffix f.fileName = true
  · rw [if_pos hsuf, if_pos hsuf]
    refine flatMapD_congr (preorder f.root) ?_
    intro m hm
    exact processNode_eq_V1 pass f.root m (h f hf m hm)
  · rw [if_neg hsuf, if_neg hsuf]

/-- A node none of whose call shapes passes a selector first argument
satisfies `CandidateDirectOk` whenever the oracle is consistent
everywhere (as in the trivial-oracle witness scenario). -/
theorem noSelector_candidateDirectOk {pass : Pass} {m : Node}
    (hm : noSelectorFirstArg m = true)
    (hca : ∀ e : Node, ConsistentAt pass e) :
    CandidateDirectOk pass m := by
  intro p e fn args sp x firstArg rest hc hs hT hargs hlen
  subst hargs
  refine ⟨?_, hca firstArg⟩
  unfold noSelectorFirstArg at hm
  rw [hc] at hm
  simpa using hm

/-- Witness for the amended C10: on the literal-only test file of
`w10Pass` the two entry points produce identical output. -/
theorem C10_witness : runPass w10Pass = runPassV1 w10Pass := by
  apply C10_amended_direct_agreement
  intro f hf m hm
  refine noSelector_candidateDirectOk ?_ ?_
  · exact (by decide :
      ∀ f, f ∈ w10Pass.files → ∀ m, m ∈ preorder f.root →
        noSelectorFirstArg m = true) f hf m hm
  · intro e
    exact ⟨fun cv h => Option.noConfusion h,
      fun _ _ _ _ => rfl,
      fun _ _ cv _ hok => ObjKind.noConfusion hok⟩
